import Mathlib

/-!
Verification of the Qfix query-log diagnosis/repair system.

The constraint gadgets of `add_constraints.py` are embedded as predicates
over rational-valued assignments (one `Prop` per emitted linear constraint,
with the PuLP `Binary` category rendered as membership in {0, 1}).  The pure
Python data transformations (`create_R`, `parse_query_log`,
`add_query_constant_variables`) are embedded as executable Lean functions
over association lists and explicit character lists.
-/

namespace Qfix

/-- A PuLP variable of category `Binary` takes the value 0 or 1 in any
feasible assignment. -/
def isBinary (x : ℚ) : Prop := x = 0 ∨ x = 1

instance (x : ℚ) : Decidable (isBinary x) := by
  unfold isBinary; infer_instance

/-- The three constraints returned by `binary_mult(b, u, M)` in
`add_constraints.py` (the spec's `indicatorProduct`):
`a <= u`, `a <= b*M`, `a >= u - (1-b)*M`.  The returned variable `a` is
created with `cat=pulp.LpBinary`; that domain restriction is stated
separately via `isBinary`. -/
def binary_mult_constraints (a b u M : ℚ) : Prop :=
  a ≤ u ∧ a ≤ b * M ∧ u - (1 - b) * M ≤ a

instance (a b u M : ℚ) : Decidable (binary_mult_constraints a b u M) := by
  unfold binary_mult_constraints; infer_instance

/-- The single constraint returned by `is_less_equal(v1, v2, M)`:
`v1 - v2 <= M * (1 - b)`. -/
def is_less_equal_constraint (b v1 v2 M : ℚ) : Prop :=
  v1 - v2 ≤ M * (1 - b)

instance (b v1 v2 M : ℚ) : Decidable (is_less_equal_constraint b v1 v2 M) := by
  unfold is_less_equal_constraint; infer_instance

/-- The three constraints returned by `and_binary(b1, b2)`:
`b <= b1`, `b <= b2`, `b >= b1 + b2 - 1`. -/
def and_binary_constraints (b b1 b2 : ℚ) : Prop :=
  b ≤ b1 ∧ b ≤ b2 ∧ b1 + b2 - 1 ≤ b

instance (b b1 b2 : ℚ) : Decidable (and_binary_constraints b b1 b2) := by
  unfold and_binary_constraints; infer_instance

/-- The constraint list returned by `is_equal(v1, v2, M)`: the two
`is_less_equal` legs (for the fresh binaries `b1`, `b2`) plus the
`and_binary` constraints tying the returned binary `b` to them. -/
def is_equal_constraints (b b1 b2 v1 v2 M : ℚ) : Prop :=
  is_less_equal_constraint b1 v1 v2 M ∧
  is_less_equal_constraint b2 v2 v1 M ∧
  and_binary_constraints b b1 b2

instance (b b1 b2 v1 v2 M : ℚ) : Decidable (is_equal_constraints b b1 b2 v1 v2 M) := by
  unfold is_equal_constraints; infer_instance

/-- Claim C1: for every binary `b` and continuous `u` with `0 ≤ u ≤ M`, in
every feasible assignment of the `binary_mult(b, u, M)` gadget (its three
constraints together with the binary domains of `a` and `b`), the returned
variable satisfies `a = u` when `b = 1` and `a = 0` when `b = 0`; `u` ranges
over all rationals in `[0, M]`, not only integer or binary values. -/
theorem C1_binary_mult_sound (a b u M : ℚ)
    (ha : isBinary a) (hb : isBinary b)
    (hu0 : 0 ≤ u) (huM : u ≤ M)
    (hc : binary_mult_constraints a b u M) :
    (b = 1 → a = u) ∧ (b = 0 → a = 0) := by
  obtain ⟨h1, h2, h3⟩ := hc
  constructor
  · intro hb1
    subst hb1
    have h3' : u ≤ a := by nlinarith
    linarith
  · intro hb0
    subst hb0
    have h2' : a ≤ 0 := by nlinarith
    rcases ha with h | h
    · exact h
    · exfalso; rw [h] at h2'; norm_num at h2'

/-- Witness for C1 at the concrete feasible point `a = 1, b = 1, u = 1, M = 2`. -/
theorem C1_witness :
    (isBinary 1 ∧ isBinary 1 ∧ (0:ℚ) ≤ 1 ∧ (1:ℚ) ≤ 2 ∧
      binary_mult_constraints 1 1 1 2) ∧
    (((1:ℚ) = 1 → (1:ℚ) = 1) ∧ ((1:ℚ) = 0 → (1:ℚ) = 0)) :=
  ⟨⟨by simp [isBinary], by simp [isBinary], by simp, by simp,
      by simp [binary_mult_constraints]⟩,
    C1_binary_mult_sound 1 1 1 2 (by simp [isBinary]) (by simp [isBinary])
      (by simp) (by simp) (by simp [binary_mult_constraints])⟩

/-- Counterexample to claim C2 as stated: the constraints of
`is_equal(v, v, M)` at `v = 5`, `M = 1` do NOT force the returned binary to
1 — the all-zero assignment `b = b1 = b2 = 0` is feasible (each
`is_less_equal` leg is a one-directional implication, so nothing forces the
legs to 1), and there `b = 0 ≠ 1`. -/
theorem C2_counterexample :
    (isBinary 0 ∧ isBinary 0 ∧ isBinary 0 ∧
      is_equal_constraints 0 0 0 5 5 1) ∧ (0:ℚ) ≠ 1 := by
  refine ⟨⟨Or.inl rfl, Or.inl rfl, Or.inl rfl, ?_⟩, by norm_num⟩
  simp [is_equal_constraints, is_less_equal_constraint, and_binary_constraints]

/-- Claim C2 (amended): for every numerically fixed `v` and every `M`, the
constraint system of `equal(v, v, M)` (`is_equal` in the code) is feasible
with the returned binary equal to 1: setting all three fresh binaries
`b1 = b2 = b = 1` satisfies every emitted constraint and every binary
domain.  (The constraints permit, but do not force, the output value 1.) -/
theorem C2_is_equal_amended (v M : ℚ) :
    isBinary 1 ∧ isBinary 1 ∧ isBinary 1 ∧ is_equal_constraints 1 1 1 v v M := by
  refine ⟨Or.inr rfl, Or.inr rfl, Or.inr rfl, ?_, ?_, ?_⟩ <;>
    simp [is_less_equal_constraint, and_binary_constraints]

/-- The constraint system emitted by `add_e_constraints` for one
`(query i, tuple j)` pair: `is_equal(t_var, ghost, M)` producing `b1` (with
internal leg binaries `le1`, `le2`), the fixed binary `b2` (`b2 = 1` when
the complaint's correct value equals `ghost`, else `b2 = 0`),
`and_binary(b1, b2)` producing `bAnd`, and `e + bAnd = 1`.  All of `e`,
`le1`, `le2`, `b1`, `b2`, `bAnd` are created with category `Binary`. -/
def e_system (e le1 le2 b1 b2 bAnd t correct ghost M : ℚ) : Prop :=
  isBinary e ∧ isBinary le1 ∧ isBinary le2 ∧ isBinary b1 ∧ isBinary b2 ∧
  isBinary bAnd ∧
  is_equal_constraints b1 le1 le2 t ghost M ∧
  (if correct = ghost then b2 = 1 else b2 = 0) ∧
  and_binary_constraints bAnd b1 b2 ∧
  e + bAnd = 1

/-- Counterexample to claim C3 as stated: a feasible assignment of the
`add_e_constraints` system in which the solved value `t = 0` equals
`ghost = 0` AND the complaint's correct value `0` equals `ghost`, yet
`e = 1` (the claim's "e = 1 iff NOT (solved value = ghost AND correct value
= ghost)" demands `e = 0` here).  The equal gadget's legs are
one-directional, so `le1 = le2 = b1 = 0` is feasible even though
`t = ghost`. -/
theorem C3_counterexample :
    e_system 1 0 0 0 1 0 0 0 0 1 ∧ (1:ℚ) ≠ 0 := by
  refine ⟨⟨Or.inr rfl, Or.inl rfl, Or.inl rfl, Or.inl rfl, Or.inr rfl,
    Or.inl rfl, ?_, ?_, ?_, ?_⟩, by norm_num⟩
  · simp [is_equal_constraints, is_less_equal_constraint,
      and_binary_constraints]
  · simp
  · simp [and_binary_constraints]
  · norm_num

/-- Claim C3 (amended): in every feasible assignment of the
`add_e_constraints` system for a `(query i, tuple j)` pair,
`e = 1 - and(b1, b2)` where `bAnd` is exactly the conjunction of the binary
`b1` produced by the equal gadget and the fixed binary `b2`
(`b2 = 1` iff the complaint's correct value equals `ghost`); consequently
`e = 0` implies both the solved value and the complaint's correct value
equal `ghost`.  The converse implication ("both ghost implies `e = 0`") is
NOT forced, because the equal gadget is one-directional. -/
theorem C3_e_constraints_amended
    (e le1 le2 b1 b2 bAnd t correct ghost M : ℚ)
    (h : e_system e le1 le2 b1 b2 bAnd t correct ghost M) :
    e = 1 - bAnd ∧
    (bAnd = 1 ↔ (b1 = 1 ∧ b2 = 1)) ∧
    b2 = (if correct = ghost then 1 else 0) ∧
    (e = 0 → t = ghost ∧ correct = ghost) := by
  obtain ⟨hev, hle1, hle2, hb1, hb2, hband,
    ⟨hleg1, hleg2, hand1⟩, hfix, hand2, hsum⟩ := h
  obtain ⟨ha1, ha2, ha3⟩ := hand2
  obtain ⟨hc1, hc2, hc3⟩ := hand1
  have hbAndIff : bAnd = 1 ↔ (b1 = 1 ∧ b2 = 1) := by
    constructor
    · intro hA
      constructor
      · rcases hb1 with h1 | h1
        · exfalso; rw [hA, h1] at ha1; norm_num at ha1
        · exact h1
      · rcases hb2 with h2 | h2
        · exfalso; rw [hA, h2] at ha2; norm_num at ha2
        · exact h2
    · rintro ⟨h1, h2⟩
      rcases hband with hA | hA
      · exfalso; rw [hA, h1, h2] at ha3; norm_num at ha3
      · exact hA
  refine ⟨by linarith, hbAndIff, ?_, ?_⟩
  · split_ifs at hfix ⊢ with hcg
    · exact hfix
    · exact hfix
  · intro he0
    have hA1 : bAnd = 1 := by linarith
    obtain ⟨h1, h2⟩ := hbAndIff.mp hA1
    have hl1 : le1 = 1 := by
      rcases hle1 with hl | hl
      · exfalso; rw [h1, hl] at hc1; norm_num at hc1
      · exact hl
    have hl2 : le2 = 1 := by
      rcases hle2 with hl | hl
      · exfalso; rw [h1, hl] at hc2; norm_num at hc2
      · exact hl
    constructor
    · rw [hl1] at hleg1; rw [hl2] at hleg2
      unfold is_less_equal_constraint at hleg1 hleg2
      have e1 : t - ghost ≤ 0 := by
        calc t - ghost ≤ M * (1 - 1) := hleg1
        _ = 0 := by ring
      have e2 : ghost - t ≤ 0 := by
        calc ghost - t ≤ M * (1 - 1) := hleg2
        _ = 0 := by ring
      linarith
    · by_contra hne
      rw [if_neg hne] at hfix
      rw [hfix] at h2
      norm_num at h2

/-- Witness for C3 at the concrete feasible point where the solved value,
the correct value and ghost all agree and every gadget binary is 1. -/
theorem C3_witness :
    e_system 0 1 1 1 1 1 0 0 0 1 ∧ (0:ℚ) = 1 - 1 :=
  ⟨⟨Or.inl rfl, Or.inr rfl, Or.inr rfl, Or.inr rfl, Or.inr rfl, Or.inr rfl,
      by simp [is_equal_constraints, is_less_equal_constraint,
        and_binary_constraints],
      by simp, by simp [and_binary_constraints], by simp⟩,
    (C3_e_constraints_amended 0 1 1 1 1 1 0 0 0 1
      ⟨Or.inl rfl, Or.inr rfl, Or.inr rfl, Or.inr rfl, Or.inr rfl, Or.inr rfl,
        by simp [is_equal_constraints, is_less_equal_constraint,
          and_binary_constraints],
        by simp, by simp [and_binary_constraints], by simp⟩).1⟩

/-! ## String machinery for `query_log_parse.py`

The parser's regular expressions are hand-compiled into deterministic
matchers over `List Char`, reproducing CPython `re` semantics for these
specific patterns: `(?i)` case-insensitive literals, `\s` as the ASCII
whitespace class, `\w` as ASCII word characters, `.` matching anything but
a newline, `$` matching at the end of the string or just before a final
newline, greedy `\s+`/`\s*`/`(.*)` and lazy `(.*?)` with the engine's
preference order (including the backtracking between the greedy `\s+`
after `SET` and the lazy set-clause group). -/

/-- Python `\s` (ASCII range), also the character set of `str.strip()`. -/
def isWs (c : Char) : Bool :=
  c = ' ' || c = '\t' || c = '\n' || c = '\r' || c = '\x0b' || c = '\x0c'

/-- Python `\w` (ASCII range). -/
def isWordChar (c : Char) : Bool := c.isAlphanum || c = '_'

/-- Character class `[\w\.]` used for SET/WHERE operands. -/
def isOperandChar (c : Char) : Bool := isWordChar c || c = '.'

/-- Python `str.strip()` on a character list. -/
def pyStripL (cs : List Char) : List Char :=
  ((cs.dropWhile isWs).reverse.dropWhile isWs).reverse

/-- Python `str.strip()`. -/
def pyStrip (s : String) : String := ⟨pyStripL s.toList⟩

/-- Case-insensitive literal: consume `lit` (given in lowercase) from the
front of the input, returning the remainder. -/
def dropCI : List Char → List Char → Option (List Char)
  | [], cs => some cs
  | _ :: _, [] => none
  | l :: ls, c :: cs => if c.toLower = l then dropCI ls cs else none

/-- `\s+`: require at least one whitespace character, consume the maximal
whitespace run. -/
def ws1 (cs : List Char) : Option (List Char) :=
  match cs with
  | c :: _ => if isWs c then some (cs.dropWhile isWs) else none
  | [] => none

/-- Matches `\s+WHERE\s+(.*)$` at the current position (case-insensitive
WHERE, `.` not matching newline, `$` allowing one final newline), returning
the `(.*)` group. -/
def whereBranch (cs : List Char) : Option (List Char) :=
  match cs with
  | [] => none
  | c :: _ =>
    if isWs c then
      match dropCI ['w','h','e','r','e'] (cs.dropWhile isWs) with
      | some r2 =>
        match r2 with
        | [] => none
        | d :: _ =>
          if isWs d then
            let r3 := r2.dropWhile isWs
            let g := r3.takeWhile (· != '\n')
            let rest := r3.drop g.length
            if rest = [] ∨ rest = ['\n'] then some g else none
          else none
      | none => none
    else none

/-- The lazy scan of `(.*?)(?:\s+WHERE\s+(.*))?$`: grow the set-clause
group one character at a time (never across a newline); at each position
first try the WHERE branch, then the end-of-input anchor. -/
def tailScanAux (acc : List Char) : List Char → Option (List Char × Option (List Char))
  | [] => some (acc.reverse, none)
  | c :: rest =>
    match whereBranch (c :: rest) with
    | some g3 => some (acc.reverse, some g3)
    | none =>
      if c = '\n' then
        if rest = [] then some (acc.reverse, none) else none
      else tailScanAux (c :: acc) rest

/-- Greedy backtracking over the `\s+` that precedes the set clause: try
consuming `k` whitespace characters for `k` from the maximal run length
down to 1. -/
def tryDrop (cs : List Char) : ℕ → Option (List Char × Option (List Char))
  | 0 => none
  | k + 1 =>
    match tailScanAux [] (cs.drop (k + 1)) with
    | some x => some x
    | none => tryDrop cs k

/-- Matches `\s+(.*?)(?:\s+WHERE\s+(.*))?$` (the part of the UPDATE
pattern after `SET`). -/
def setTail (cs : List Char) : Option (List Char × Option (List Char)) :=
  let w := (cs.takeWhile isWs).length
  if w = 0 then none else tryDrop cs w

/-- The compiled `update_pattern`
`(?i)^UPDATE\s+(\w+)\s+SET\s+(.*?)(?:\s+WHERE\s+(.*))?$`, returning the
groups (table, set clause, optional where clause). -/
def updateMatch (cs : List Char) : Option (String × List Char × Option (List Char)) :=
  match dropCI ['u','p','d','a','t','e'] cs with
  | none => none
  | some r1 =>
    match ws1 r1 with
    | none => none
    | some r2 =>
      let tbl := r2.takeWhile isWordChar
      if tbl = [] then none
      else
        match ws1 (r2.drop tbl.length) with
        | none => none
        | some r4 =>
          match dropCI ['s','e','t'] r4 with
          | none => none
          | some r5 =>
            match setTail r5 with
            | some (g2, g3) => some (⟨tbl⟩, g2, g3)
            | none => none

/-- Lazy scan for the VALUES group `(.*?)\)\s*$`: the group ends at the
first close-paren followed only by whitespace. -/
def valScan (acc : List Char) : List Char → Option (List Char)
  | [] => none
  | ')' :: rest =>
    if rest.all isWs then some acc.reverse else valScan (')' :: acc) rest
  | '\n' :: _ => none
  | c :: rest => valScan (c :: acc) rest

/-- Matches `\s+VALUES\s*\((.*?)\)\s*$` at the current position
(case-insensitive VALUES), returning the values group. -/
def valuesPart (r : List Char) : Option (List Char) :=
  match ws1 r with
  | none => none
  | some r1 =>
    match dropCI ['v','a','l','u','e','s'] r1 with
    | none => none
    | some r2 =>
      match r2.dropWhile isWs with
      | '(' :: r4 => valScan [] r4
      | _ => none

/-- Lazy scan for the optional columns group `(.*?)\)` followed by the
VALUES part: try each close-paren in turn as the group's end. -/
def colScan (acc : List Char) : List Char → Option (List Char × List Char)
  | [] => none
  | ')' :: rest =>
    match valuesPart rest with
    | some v => some (acc.reverse, v)
    | none => colScan (')' :: acc) rest
  | '\n' :: _ => none
  | c :: rest => colScan (c :: acc) rest

/-- The compiled `insert_pattern`
`(?i)^INSERT\s+INTO\s+(\w+)(?:\s*\((.*?)\))?\s+VALUES\s*\((.*?)\)\s*$`,
returning the groups (table, optional columns, values). -/
def insertMatch (cs : List Char) : Option (String × Option (List Char) × List Char) :=
  match dropCI ['i','n','s','e','r','t'] cs with
  | none => none
  | some r1 =>
    match ws1 r1 with
    | none => none
    | some r2 =>
      match dropCI ['i','n','t','o'] r2 with
      | none => none
      | some r3 =>
        match ws1 r3 with
        | none => none
        | some r4 =>
          let tbl := r4.takeWhile isWordChar
          if tbl = [] then none
          else
            let r5 := r4.drop tbl.length
            match r5.dropWhile isWs with
            | '(' :: r6 =>
              match colScan [] r6 with
              | some (g2, v) => some (⟨tbl⟩, some g2, v)
              | none =>
                match valuesPart r5 with
                | some v => some (⟨tbl⟩, none, v)
                | none => none
            | _ =>
              match valuesPart r5 with
              | some v => some (⟨tbl⟩, none, v)
              | none => none

/-- The compiled `delete_pattern`
`(?i)^DELETE\s+FROM\s+(\w+)(?:\s+WHERE\s+(.*))?$`, returning the groups
(table, optional where clause). -/
def deleteMatch (cs : List Char) : Option (String × Option (List Char)) :=
  match dropCI ['d','e','l','e','t','e'] cs with
  | none => none
  | some r1 =>
    match ws1 r1 with
    | none => none
    | some r2 =>
      match dropCI ['f','r','o','m'] r2 with
      | none => none
      | some r3 =>
        match ws1 r3 with
        | none => none
        | some r4 =>
          let tbl := r4.takeWhile isWordChar
          if tbl = [] then none
          else
            let r5 := r4.drop tbl.length
            match whereBranch r5 with
            | some g => some (⟨tbl⟩, some g)
            | none =>
              if r5 = [] ∨ r5 = ['\n'] then some (⟨tbl⟩, none) else none

/-- A parsed SET-clause assignment expression (`parse_assignment`): either
a binary expression `left op right` or the literal expression. -/
inductive SetExpr where
  | binOp (left : String) (op : String) (right : String)
  | expr (e : String)
deriving DecidableEq, Repr

/-- A parsed WHERE condition (`parse_condition`): either a comparison
`attribute op value` or the raw condition text. -/
inductive Cond where
  | cmp (attrName : String) (op : String) (value : String)
  | raw (condition : String)
deriving DecidableEq, Repr

/-- A parsed log statement (`parse_query_log`): the four shapes of the
`query_info` dictionary. -/
inductive ParsedQuery where
  | update (table : String) (set : List (String × SetExpr)) (whereCl : Option (List Cond))
  | insert (table : String) (columns : Option (List String)) (values : List String)
  | delete (table : String) (whereCl : Option (List Cond))
  | unknown (raw : String)
deriving DecidableEq, Repr

/-- Python dict assignment `d[k] = v` on an association list: replace in
place if the key is present, else append. -/
def dictSetG {α : Type} : List (String × α) → String → α → List (String × α)
  | [], k, v => [(k, v)]
  | (k0, v0) :: rest, k, v =>
    if k0 = k then (k, v) :: rest else (k0, v0) :: dictSetG rest k v

/-- Python `str.split(",")` (always returns at least one piece). -/
def splitComma : List Char → List (List Char)
  | [] => [[]]
  | ',' :: rest => [] :: splitComma rest
  | c :: rest =>
    match splitComma rest with
    | p :: ps => (c :: p) :: ps
    | [] => [[c]]

/-- Python `s.split("=", 1)` when `"=" in s` (`none` when no `=`). -/
def splitEq1 : List Char → Option (List Char × List Char)
  | [] => none
  | '=' :: r => some ([], r)
  | c :: r => (splitEq1 r).map (fun p => (c :: p.1, p.2))

/-- The compiled assignment pattern `^(\w+)\s*([\+\-\*\/])\s*([\w\.]+)$`. -/
def assignMatch (cs : List Char) : Option (List Char × Char × List Char) :=
  let l := cs.takeWhile isWordChar
  if l = [] then none
  else
    match (cs.drop l.length).dropWhile isWs with
    | op :: r2 =>
      if op = '+' ∨ op = '-' ∨ op = '*' ∨ op = '/' then
        let r3 := r2.dropWhile isWs
        let rand := r3.takeWhile isOperandChar
        let rest := r3.drop rand.length
        if rand ≠ [] ∧ (rest = [] ∨ rest = ['\n']) then some (l, op, rand)
        else none
      else none
    | [] => none

/-- `parse_assignment` from `query_log_parse.py`. -/
def parse_assignment (cs : List Char) : SetExpr :=
  let e := pyStripL cs
  match assignMatch e with
  | some (l, op, r) => .binOp ⟨l⟩ ⟨[op]⟩ ⟨r⟩
  | none => .expr ⟨e⟩

/-- The trailing `\s*([\w\.]+)$` of the condition pattern. -/
def condTail (r : List Char) : Option (List Char) :=
  let r3 := r.dropWhile isWs
  let rand := r3.takeWhile isOperandChar
  let rest := r3.drop rand.length
  if rand ≠ [] ∧ (rest = [] ∨ rest = ['\n']) then some rand else none

/-- Try one alternative of the comparison-operator alternation: the exact
literal followed by a successful operand tail. -/
def tryOp (lit : List Char) (r1 : List Char) : Option (List Char) :=
  if r1.take lit.length = lit then condTail (r1.drop lit.length) else none

/-- The alternation `(<=|>=|=|<|>)` (with the regex's preference order and
backtracking into later alternatives). -/
def condOpMatch (r1 : List Char) : Option (String × List Char) :=
  match tryOp ['<','='] r1 with
  | some v => some ("<=", v)
  | none =>
    match tryOp ['>','='] r1 with
    | some v => some (">=", v)
    | none =>
      match tryOp ['='] r1 with
      | some v => some ("=", v)
      | none =>
        match tryOp ['<'] r1 with
        | some v => some ("<", v)
        | none =>
          match tryOp ['>'] r1 with
          | some v => some (">", v)
          | none => none

/-- `parse_condition` from `query_log_parse.py`
(pattern `^(\w+)\s*(<=|>=|=|<|>)\s*([\w\.]+)$`). -/
def parse_condition (cs : List Char) : Cond :=
  let e := pyStripL cs
  let a := e.takeWhile isWordChar
  if a = [] then .raw ⟨e⟩
  else
    match condOpMatch ((e.drop a.length).dropWhile isWs) with
    | some (op, v) => .cmp ⟨a⟩ op ⟨v⟩
    | none => .raw ⟨e⟩

/-- Find the leftmost separator `(?i)\s+AND\s+` (returning the text before
it and the text after it). -/
def findAnd : List Char → List Char → Option (List Char × List Char)
  | [], _ => none
  | c :: rest, acc =>
    if isWs c then
      match dropCI ['a','n','d'] ((c :: rest).dropWhile isWs) with
      | some r2 =>
        match r2 with
        | d :: _ =>
          if isWs d then some (acc.reverse, r2.dropWhile isWs)
          else findAnd rest (c :: acc)
        | [] => findAnd rest (c :: acc)
      | none => findAnd rest (c :: acc)
    else findAnd rest (c :: acc)

/-- `re.split(r"(?i)\s+AND\s+", w)` (the fuel, called with the input's
length, always suffices since each separator consumes characters). -/
def splitANDF : ℕ → List Char → List (List Char)
  | 0, cs => [cs]
  | fuel + 1, cs =>
    match findAnd cs [] with
    | some (pre, post) => pre :: splitANDF fuel post
    | none => [cs]

/-- `parse_where_clause` from `query_log_parse.py`. -/
def parse_where_clause (cs : List Char) : List Cond :=
  (((splitANDF cs.length cs).map pyStripL).filter (fun c => !c.isEmpty)).map
    parse_condition

/-- The SET-clause processing inside `parse_query_log`'s UPDATE branch:
split on commas, keep the pieces containing `=`, build the dict. -/
def parseSetClause (s : List Char) : List (String × SetExpr) :=
  (splitComma (pyStripL s)).foldl
    (fun d a =>
      match splitEq1 (pyStripL a) with
      | some (l, r) => dictSetG d ⟨pyStripL l⟩ (parse_assignment (pyStripL r))
      | none => d) []

/-- One iteration of `parse_query_log` on an already-stripped line: try the
UPDATE, INSERT, DELETE patterns in order, falling back to UNKNOWN (which
stores the stripped text).  A `where`/`columns` group that is `None` or
empty yields `None` (Python truthiness). -/
def parseStripped (q : String) : ParsedQuery :=
  match updateMatch q.toList with
  | some (tbl, setStr, whereOpt) =>
    .update tbl (parseSetClause setStr)
      (match whereOpt with
       | some w => if w.isEmpty then none else some (parse_where_clause w)
       | none => none)
  | none =>
    match insertMatch q.toList with
    | some (tbl, colsOpt, valsStr) =>
      .insert tbl
        (match colsOpt with
         | some cols =>
           if cols.isEmpty then none
           else some ((splitComma cols).map (fun c => (⟨pyStripL c⟩ : String)))
         | none => none)
        ((splitComma valsStr).map (fun v => (⟨pyStripL v⟩ : String)))
    | none =>
      match deleteMatch q.toList with
      | some (tbl, whereOpt) =>
        .delete tbl
          (match whereOpt with
           | some w => if w.isEmpty then none else some (parse_where_clause w)
           | none => none)
      | none => .unknown q

/-- One iteration of the `parse_query_log` loop: `query = query.strip()`
followed by the pattern cascade. -/
def parseLine (line : String) : ParsedQuery := parseStripped (pyStrip line)

/-- `parse_query_log` from `query_log_parse.py`: one output entry per input
line, in order. -/
def parse_query_log (Q : List String) : List ParsedQuery := Q.map parseLine

/-! ## CPython `float()` acceptance

Models which strings `float(s)` parses (ASCII): optional surrounding
whitespace, optional sign, then `inf`/`infinity`/`nan` (case-insensitive)
or a decimal number with optional fraction and exponent, where digit runs
may contain single underscores between digits. -/

/-- Continue a digit run: digits, with single underscores allowed only
between digits; returns the unconsumed remainder. -/
def digitPartCont : List Char → List Char
  | [] => []
  | '_' :: rest =>
    match rest with
    | d :: r2 => if d.isDigit then digitPartCont r2 else '_' :: rest
    | [] => ['_']
  | c :: rest => if c.isDigit then digitPartCont rest else c :: rest

/-- A digit part: at least one digit, then `digitPartCont`. -/
def digitPart : List Char → Option (List Char)
  | [] => none
  | c :: rest => if c.isDigit then some (digitPartCont rest) else none

/-- The mantissa of a float literal: `digits [. [digits]]` or `. digits`. -/
def mantissa (cs : List Char) : Option (List Char) :=
  match digitPart cs with
  | some r =>
    match r with
    | '.' :: r2 =>
      match digitPart r2 with
      | some r3 => some r3
      | none => some r2
    | _ => some r
  | none =>
    match cs with
    | '.' :: r2 => digitPart r2
    | _ => none

/-- The optional exponent after the mantissa; the whole remainder must be
consumed. -/
def expTail (r : List Char) : Bool :=
  match r with
  | [] => true
  | e :: r2 =>
    if e = 'e' ∨ e = 'E' then
      match r2 with
      | s :: r3 =>
        if s = '+' ∨ s = '-' then
          match digitPart r3 with
          | some [] => true
          | _ => false
        else
          match digitPart r2 with
          | some [] => true
          | _ => false
      | [] => false
    else false

/-- Case-insensitive whole-string comparison against a lowercase literal. -/
def ciIs (lit : List Char) (cs : List Char) : Bool :=
  cs.map Char.toLower == lit

/-- Whether CPython `float(s)` succeeds (the numeric-literal check used by
`add_query_constant_variables`). -/
def pyFloatAccepts (s : String) : Bool :=
  let cs := pyStripL s.toList
  let body := fun (b : List Char) =>
    ciIs ['i','n','f'] b || ciIs ['i','n','f','i','n','i','t','y'] b ||
    ciIs ['n','a','n'] b ||
    (match mantissa b with
     | some r => expTail r
     | none => false)
  match cs with
  | '+' :: r => body r
  | '-' :: r => body r
  | _ => body cs

/-! ## `create_R` from `main.py` -/

/-- A database row: a Python dict from attribute names to (integer)
values, modelled as an association list in key-insertion order. -/
def Row : Type := List (String × Int)

instance : DecidableEq Row := by unfold Row; infer_instance

instance : Inhabited Row := ⟨([] : List (String × Int))⟩

/-- `row['_inserted_at'] = -1` applied to a copy of an original row. -/
def tagRow (r : Row) : Row := dictSetG r "_inserted_at" (-1)

/-- Python `s.startswith(p)` (case-sensitive), on character lists. -/
def startsL : List Char → List Char → Bool
  | [], _ => true
  | _ :: _, [] => false
  | p :: ps, c :: cs => p = c && startsL ps cs

/-- The INSERT test of `create_R`: `query.strip().startswith("INSERT")`
(case-sensitive). -/
def isInsertLine (q : String) : Bool :=
  startsL ['I','N','S','E','R','T'] (pyStripL q.toList)

/-- Python `key.startswith('_')` (the metadata-key test). -/
def isMetaKey (k : String) : Bool := startsL ['_'] k.toList

/-- The new tuple appended by `create_R` for an INSERT at log index `i`:
all non-metadata keys of the current `R[0]` (if `R` is nonempty) mapped to
0, plus `_inserted_at = i`. -/
def newTuple (R : List Row) (i : ℕ) : Row :=
  let tmpl : Row :=
    match R with
    | [] => ([] : List (String × Int))
    | r :: _ =>
      (((r.map Prod.fst).filter (fun k => !isMetaKey k)).foldl
        (fun d k => dictSetG d k 0) ([] : List (String × Int)))
  dictSetG tmpl "_inserted_at" (i : Int)

/-- One iteration of `create_R`'s loop over `enumerate(Q)`. -/
def createStep (R : List Row) (iq : ℕ × String) : List Row :=
  if isInsertLine iq.2 then R ++ [newTuple R iq.1] else R

/-- `create_R` from `main.py`: copy and tag the initial rows, then append
one placeholder tuple per line starting (after stripping) with the exact
text `INSERT`. -/
def create_R (D0 : List Row) (Q : List String) : List Row :=
  Q.enum.foldl createStep (D0.map tagRow)

/-- The tuple `create_R` appends for an INSERT at index `i`, expressed as a
function of the (fixed) first row `h` of `R`. -/
def newTupleOf (h : Row) (i : ℕ) : Row :=
  dictSetG
    (((h.map Prod.fst).filter (fun k => !isMetaKey k)).foldl
      (fun d k => dictSetG d k 0) ([] : List (String × Int)))
    "_inserted_at" (i : Int)

/-- The appended portion of `create_R`'s result: one tuple per
INSERT-prefixed line, tagged with that line's log index. -/
def insertedTuples (h : Row) (Q : List String) : List Row :=
  Q.enum.filterMap
    (fun p => if isInsertLine p.2 then some (newTupleOf h p.1) else none)

lemma newTuple_eq_newTupleOf (R : List Row) (i : ℕ) :
    newTuple R i = newTupleOf R.headI i := by
  cases R with
  | nil => rfl
  | cons r t => rfl

lemma headI_append_ne_nil (R L : List Row) (h : R ≠ []) :
    (R ++ L).headI = R.headI := by
  cases R with
  | nil => exact absurd rfl h
  | cons r t => rfl

lemma foldl_createStep_ne_nil (l : List (ℕ × String)) :
    ∀ R : List Row, R ≠ [] →
    l.foldl createStep R =
      R ++ l.filterMap
        (fun p => if isInsertLine p.2 then some (newTupleOf R.headI p.1) else none) := by
  induction l with
  | nil => intro R _; simp
  | cons p l ih =>
    intro R hR
    by_cases hIns : isInsertLine p.2
    · have hstep : createStep R p = R ++ [newTuple R p.1] := by
        simp [createStep, hIns]
      have hne : R ++ [newTuple R p.1] ≠ [] := by
        simp
      calc (p :: l).foldl createStep R
          = l.foldl createStep (R ++ [newTuple R p.1]) := by
            rw [List.foldl_cons, hstep]
        _ = (R ++ [newTuple R p.1]) ++ l.filterMap
              (fun q => if isInsertLine q.2 then
                some (newTupleOf (R ++ [newTuple R p.1]).headI q.1) else none) :=
            ih _ hne
        _ = R ++ ((newTupleOf R.headI p.1) :: l.filterMap
              (fun q => if isInsertLine q.2 then
                some (newTupleOf R.headI q.1) else none)) := by
            rw [headI_append_ne_nil R _ hR, List.append_assoc,
              newTuple_eq_newTupleOf]
            rfl
        _ = R ++ (p :: l).filterMap
              (fun q => if isInsertLine q.2 then
                some (newTupleOf R.headI q.1) else none) := by
            rw [List.filterMap_cons]
            simp [hIns]
    · have hstep : createStep R p = R := by
        simp [createStep, hIns]
      rw [List.foldl_cons, hstep, ih R hR, List.filterMap_cons]
      simp [hIns]

lemma newTupleOf_tag_only (x : Int) (j : ℕ) :
    newTupleOf [("_inserted_at", x)] j = newTupleOf ([] : Row) j := by
  have hmeta : isMetaKey "_inserted_at" = true := by decide
  simp [newTupleOf, hmeta]

lemma singleton_newTuple_headI (i : ℕ) :
    ([newTuple [] i] : List Row).headI = [("_inserted_at", (i : Int))] := rfl

lemma foldl_createStep_nil (l : List (ℕ × String)) :
    l.foldl createStep ([] : List Row) =
      l.filterMap
        (fun p => if isInsertLine p.2 then some (newTupleOf ([] : Row) p.1) else none) := by
  induction l with
  | nil => rfl
  | cons p l ih =>
    by_cases hIns : isInsertLine p.2
    · have hstep : createStep [] p = [newTuple [] p.1] := by
        simp [createStep, hIns]
      have hnt : newTuple [] p.1 = newTupleOf ([] : Row) p.1 := rfl
      have hfm :
          l.filterMap
            (fun q => if isInsertLine q.2 then
              some (newTupleOf ([newTuple [] p.1] : List Row).headI q.1) else none) =
          l.filterMap
            (fun q => if isInsertLine q.2 then
              some (newTupleOf ([] : Row) q.1) else none) := by
        apply List.filterMap_congr
        intro q _
        rw [singleton_newTuple_headI, newTupleOf_tag_only]
      rw [List.foldl_cons, hstep,
        foldl_createStep_ne_nil l [newTuple [] p.1] (by simp), hfm,
        List.filterMap_cons]
      simp [hIns, hnt]
    · have hstep : createStep [] p = [] := by
        simp [createStep, hIns]
      rw [List.foldl_cons, hstep, ih, List.filterMap_cons]
      simp [hIns]

lemma insertedTuples_length (h : Row) (Q : List String) :
    (insertedTuples h Q).length = Q.countP (fun q => isInsertLine q) := by
  unfold insertedTuples List.enum
  suffices hgen : ∀ n, ((List.enumFrom n Q).filterMap
      (fun p => if isInsertLine p.2 then some (newTupleOf h p.1) else none)).length =
      Q.countP (fun q => isInsertLine q) from hgen 0
  induction Q with
  | nil => intro n; rfl
  | cons q Q ih =>
    intro n
    rw [List.enumFrom, List.filterMap_cons, List.countP_cons]
    by_cases hq : isInsertLine q
    · simp [hq, ih (n + 1)]
    · simp [hq, ih (n + 1)]

/-- Claim C5: `create_R(D_0, Q)` returns the rows of `D_0`, in order, each
(a copy) tagged with `_inserted_at = -1`, followed by exactly one appended
tuple per log line recognized as an INSERT (the stripped line starts with
the exact text `INSERT`), tagged with that line's log index; every other
line — in particular every DELETE and UPDATE — contributes nothing, so the
result's length is `|D_0|` plus the number of INSERT lines. -/
theorem C5_create_R_shape (D0 : List Row) (Q : List String) :
    create_R D0 Q =
      D0.map tagRow ++ insertedTuples ((D0.map tagRow).headI) Q ∧
    (create_R D0 Q).length =
      D0.length + Q.countP (fun q => isInsertLine q) := by
  have hmain : create_R D0 Q =
      D0.map tagRow ++ insertedTuples ((D0.map tagRow).headI) Q := by
    cases hD : D0.map tagRow with
    | nil =>
      have : D0 = [] := by
        cases D0 with
        | nil => rfl
        | cons r t => simp at hD
      subst this
      unfold create_R insertedTuples List.enum
      rw [hD, foldl_createStep_nil]
      rfl
    | cons r t =>
      unfold create_R insertedTuples List.enum
      rw [hD, foldl_createStep_ne_nil _ (r :: t) (by simp)]
  refine ⟨hmain, ?_⟩
  rw [hmain, List.length_append, List.length_map, insertedTuples_length]

/-! ## Heap-level model of `create_R` (for the non-mutation claim)

Python rows are heap objects; `create_R` does `row.copy()` before tagging.
To state that the originals are not mutated, the rows live in an explicit
store (address → row contents) and `create_R` is re-traced at that level:
`[row.copy() for row in D_0]` allocates fresh addresses carrying the same
contents; the `_inserted_at` tags and the appended INSERT tuples are
written only to fresh addresses. -/

/-- Store update at one address. -/
def updStore (σ : ℕ → Row) (a : ℕ) (r : Row) : ℕ → Row :=
  fun m => if m = a then r else σ m

/-- `[row.copy() for row in D_0]`: allocate a fresh address (from the
counter `n`) per source row, copying its contents.  Returns the new store,
the new counter, and the fresh addresses in order. -/
def copyRows (σ : ℕ → Row) (n : ℕ) : List ℕ → ((ℕ → Row) × ℕ × List ℕ)
  | [] => (σ, n, [])
  | a :: rest =>
    let σ1 := updStore σ n (σ a)
    let out := copyRows σ1 (n + 1) rest
    (out.1, out.2.1, n :: out.2.2)

/-- `for row in R: row['_inserted_at'] = -1`: in-place tagging of the
addresses in `R`. -/
def tagAll (σ : ℕ → Row) : List ℕ → (ℕ → Row)
  | [] => σ
  | a :: rest => tagAll (updStore σ a (tagRow (σ a))) rest

/-- The template row read from `σ(R[0])` (empty when `R` is empty). -/
def templateAt (σ : ℕ → Row) (addrs : List ℕ) : Row :=
  match addrs with
  | [] => ([] : List (String × Int))
  | a :: _ =>
    ((((σ a).map Prod.fst).filter (fun k => !isMetaKey k)).foldl
      (fun d k => dictSetG d k 0) ([] : List (String × Int)))

/-- The INSERT loop of `create_R` at heap level: each appended tuple is
allocated at a fresh address. -/
def insertLoop (σ : ℕ → Row) (n : ℕ) (Raddrs : List ℕ) :
    List (ℕ × String) → ((ℕ → Row) × ℕ × List ℕ)
  | [] => (σ, n, Raddrs)
  | (i, q) :: rest =>
    if isInsertLine q then
      let t := dictSetG (templateAt σ Raddrs) "_inserted_at" (i : Int)
      insertLoop (updStore σ n t) (n + 1) (Raddrs ++ [n]) rest
    else insertLoop σ n Raddrs rest

/-- `create_R` re-traced over an explicit store: `D0addrs` are the
addresses of the caller's rows, `n` is the allocator's next fresh
address. -/
def create_R_heap (σ : ℕ → Row) (n : ℕ) (D0addrs : List ℕ) (Q : List String) :
    ((ℕ → Row) × ℕ × List ℕ) :=
  let c := copyRows σ n D0addrs
  let σ2 := tagAll c.1 c.2.2
  insertLoop σ2 c.2.1 c.2.2 Q.enum

lemma copyRows_frame (addrs : List ℕ) :
    ∀ (σ : ℕ → Row) (n m : ℕ), m < n → (copyRows σ n addrs).1 m = σ m := by
  induction addrs with
  | nil => intro σ n m _; rfl
  | cons a rest ih =>
    intro σ n m hm
    have := ih (updStore σ n (σ a)) (n + 1) m (Nat.lt_succ_of_lt hm)
    rw [copyRows]
    simp only []
    rw [this]
    unfold updStore
    rw [if_neg (Nat.ne_of_lt hm)]

lemma copyRows_fresh (addrs : List ℕ) :
    ∀ (σ : ℕ → Row) (n : ℕ), ∀ b ∈ (copyRows σ n addrs).2.2, n ≤ b := by
  induction addrs with
  | nil => intro σ n b hb; simp [copyRows] at hb
  | cons a rest ih =>
    intro σ n b hb
    rw [copyRows] at hb
    simp only [List.mem_cons] at hb
    rcases hb with h | h
    · omega
    · have := ih (updStore σ n (σ a)) (n + 1) b h
      omega

lemma copyRows_counter (addrs : List ℕ) :
    ∀ (σ : ℕ → Row) (n : ℕ), n ≤ (copyRows σ n addrs).2.1 := by
  induction addrs with
  | nil => intro σ n; exact le_refl n
  | cons a rest ih =>
    intro σ n
    rw [copyRows]
    have := ih (updStore σ n (σ a)) (n + 1)
    simpa using Nat.le_of_succ_le this

lemma tagAll_frame (addrs : List ℕ) :
    ∀ (σ : ℕ → Row) (m : ℕ), m ∉ addrs → tagAll σ addrs m = σ m := by
  induction addrs with
  | nil => intro σ m _; rfl
  | cons a rest ih =>
    intro σ m hm
    rw [tagAll]
    have hma : m ≠ a := fun h => hm (h ▸ List.mem_cons_self a rest)
    have hmr : m ∉ rest := fun h => hm (List.mem_cons_of_mem a h)
    rw [ih _ m hmr]
    unfold updStore
    rw [if_neg hma]

lemma insertLoop_frame (l : List (ℕ × String)) :
    ∀ (σ : ℕ → Row) (n : ℕ) (R : List ℕ) (m : ℕ), m < n →
      (insertLoop σ n R l).1 m = σ m := by
  induction l with
  | nil => intro σ n R m _; rfl
  | cons p rest ih =>
    intro σ n R m hm
    obtain ⟨i, q⟩ := p
    rw [insertLoop]
    by_cases hq : isInsertLine q
    · simp only [hq, if_pos]
      rw [ih _ (n + 1) _ m (Nat.lt_succ_of_lt hm)]
      unfold updStore
      rw [if_neg (Nat.ne_of_lt hm)]
    · simp only [hq]
      rw [if_neg (by simp [hq])]
      exact ih _ n _ m hm

/-- Claim C9 (implicit): `create_R` never mutates its `D_0` argument — for
every store, every list of valid row addresses and every log, the rows at
the original addresses are unchanged after `create_R` runs (the
`_inserted_at` tag is written only to the fresh copies placed in `R`). -/
theorem C9_no_mutation (σ : ℕ → Row) (n : ℕ) (D0addrs : List ℕ)
    (Q : List String) (hvalid : ∀ a ∈ D0addrs, a < n) :
    ∀ a ∈ D0addrs, (create_R_heap σ n D0addrs Q).1 a = σ a := by
  intro a ha
  have han : a < n := hvalid a ha
  unfold create_R_heap
  have hfresh : ∀ b ∈ (copyRows σ n D0addrs).2.2, n ≤ b :=
    copyRows_fresh D0addrs σ n
  have hcnt : n ≤ (copyRows σ n D0addrs).2.1 := copyRows_counter D0addrs σ n
  have hnotin : a ∉ (copyRows σ n D0addrs).2.2 := by
    intro hmem
    exact absurd (hfresh a hmem) (by omega)
  rw [insertLoop_frame _ _ _ _ a (by omega), tagAll_frame _ _ a hnotin,
    copyRows_frame _ _ _ a han]

/-- Witness for C9: a one-row store with one INSERT line; the original
row's address still holds its original contents. -/
theorem C9_witness :
    (∀ a ∈ [0], a < 1) ∧
    (create_R_heap (fun _ => ([("A", 7)] : Row)) 1 [0]
      ["INSERT INTO t VALUES (1)"]).1 0 = [("A", 7)] :=
  ⟨by decide,
    C9_no_mutation (fun _ => ([("A", 7)] : Row)) 1 [0]
      ["INSERT INTO t VALUES (1)"] (by decide) 0 (by decide)⟩

/-- Claim C10 (implicit): `create_R` recognizes INSERT case-sensitively
while `parse_query_log` recognizes it case-insensitively, so a log line
beginning `insert into` is parsed as an INSERT statement while `create_R`
appends no tuple for it. -/
theorem C10_case_mismatch :
    parse_query_log ["insert into Taxes values (1, 2)"] =
      [ParsedQuery.insert "Taxes" none ["1", "2"]] ∧
    isInsertLine "insert into Taxes values (1, 2)" = false ∧
    create_R [[("id", 1)]] ["insert into Taxes values (1, 2)"] =
      [[("id", 1), ("_inserted_at", -1)]] ∧
    (create_R [[("id", 1)]] ["insert into Taxes values (1, 2)"]).length = 1 := by
  refine ⟨by decide, by decide, by decide, by decide⟩

/-! ## `add_query_constant_variables` from `add_variables.py`

Only the allocated dictionary keys matter for the claims (the values are
fresh PuLP variables); a Python dict is modelled by its key list, where
assigning an existing key leaves the key list unchanged. -/

/-- Python dict-key insertion: a repeated key keeps its position. -/
def addKey {κ : Type} [DecidableEq κ] (ks : List κ) (k : κ) : List κ :=
  if k ∈ ks then ks else ks ++ [k]

/-- The SET-clause loop of `add_query_constant_variables` for query `i`:
allocate `(i, attr)` for each assignment parsed as a binary expression
whose `right_operand` passes `float()`. -/
def stepSet (i : ℕ) (sl : List (String × SetExpr)) (s : List (ℕ × String)) :
    List (ℕ × String) :=
  sl.foldl
    (fun a p =>
      match p.2 with
      | .binOp _ _ r => if pyFloatAccepts r then addKey a (i, p.1) else a
      | .expr _ => a) s

/-- The WHERE-clause loop for query `i` (with running condition index):
allocate `(i, attr, cond_index)` for each comparison condition whose value
passes `float()`. -/
def stepConds (i : ℕ) : ℕ → List Cond → List (ℕ × String × ℕ) → List (ℕ × String × ℕ)
  | _, [], w => w
  | ci, c :: rest, w =>
    stepConds i (ci + 1) rest
      (match c with
       | .cmp attr _ v => if pyFloatAccepts v then addKey w (i, attr, ci) else w
       | .raw _ => w)

/-- The `where_clause is not None` guard. -/
def stepWhere (i : ℕ) (wc : Option (List Cond)) (w : List (ℕ × String × ℕ)) :
    List (ℕ × String × ℕ) :=
  match wc with
  | none => w
  | some conds => stepConds i 0 conds w

/-- The `for q_index, q in enumerate(parsed_Q)` loop. -/
def aqcvGo : ℕ → List ParsedQuery →
    (List (ℕ × String) × List (ℕ × String × ℕ)) →
    (List (ℕ × String) × List (ℕ × String × ℕ))
  | _, [], st => st
  | i, q :: rest, st =>
    aqcvGo (i + 1) rest
      (match q with
       | .update _ sl wc => (stepSet i sl st.1, stepWhere i wc st.2)
       | .delete _ wc => (st.1, stepWhere i wc st.2)
       | .insert _ _ _ => st
       | .unknown _ => st)

/-- `add_query_constant_variables` from `add_variables.py`, returning the
key sets of `const_vars_set` and `const_vars_where`. -/
def add_query_constant_variables (pq : List ParsedQuery) :
    List (ℕ × String) × List (ℕ × String × ℕ) :=
  aqcvGo 0 pq ([], [])

/-- The `where` component a query carries (the `q.get("where")` access). -/
def whereOf : ParsedQuery → Option (List Cond)
  | .update _ _ w => w
  | .delete _ w => w
  | .insert _ _ _ => none
  | .unknown _ => none

/-- Query `i` of the parsed log allocates a SET constant for `attr`. -/
def setQualifies (pq : List ParsedQuery) (i : ℕ) (attr : String) : Prop :=
  ∃ tbl sl wc, pq[i]? = some (.update tbl sl wc) ∧
    ∃ l op r, (attr, SetExpr.binOp l op r) ∈ sl ∧ pyFloatAccepts r = true

/-- Query `i` of the parsed log allocates a WHERE constant for condition
`ci` on `attr`. -/
def whereQualifies (pq : List ParsedQuery) (i : ℕ) (attr : String) (ci : ℕ) : Prop :=
  ∃ q conds op v, pq[i]? = some q ∧ whereOf q = some conds ∧
    conds[ci]? = some (Cond.cmp attr op v) ∧ pyFloatAccepts v = true

lemma mem_addKey {κ : Type} [DecidableEq κ] (ks : List κ) (k k' : κ) :
    k' ∈ addKey ks k ↔ k' ∈ ks ∨ k' = k := by
  unfold addKey
  by_cases h : k ∈ ks
  · rw [if_pos h]
    constructor
    · exact Or.inl
    · rintro (hk | hk)
      · exact hk
      · exact hk ▸ h
  · rw [if_neg h]
    simp

lemma nodup_addKey {κ : Type} [DecidableEq κ] (ks : List κ) (k : κ)
    (h : ks.Nodup) : (addKey ks k).Nodup := by
  unfold addKey
  by_cases hk : k ∈ ks
  · rwa [if_pos hk]
  · rw [if_neg hk]
    simp [List.nodup_append, h, hk]

lemma mem_stepSet (sl : List (String × SetExpr)) :
    ∀ (s : List (ℕ × String)) (i : ℕ) (k : ℕ × String),
      k ∈ stepSet i sl s ↔
        k ∈ s ∨ ∃ attr l op r, k = (i, attr) ∧
          (attr, SetExpr.binOp l op r) ∈ sl ∧ pyFloatAccepts r = true := by
  induction sl with
  | nil =>
    intro s i k
    simp [stepSet]
  | cons p sl ih =>
    intro s i k
    obtain ⟨attr0, se0⟩ := p
    have hstep : stepSet i ((attr0, se0) :: sl) s =
        stepSet i sl
          (match se0 with
           | .binOp _ _ r => if pyFloatAccepts r then addKey s (i, attr0) else s
           | .expr _ => s) := rfl
    rw [hstep]
    cases se0 with
    | binOp l0 op0 r0 =>
      by_cases hf : pyFloatAccepts r0
      · simp only [hf, if_pos]
        rw [ih (addKey s (i, attr0)) i k, mem_addKey]
        constructor
        · rintro ((hs | hk) | ⟨attr, l, op, r, hk, hmem, hfl⟩)
          · exact Or.inl hs
          · exact Or.inr ⟨attr0, l0, op0, r0, hk, by simp, hf⟩
          · exact Or.inr ⟨attr, l, op, r, hk, List.mem_cons_of_mem _ hmem, hfl⟩
        · rintro (hs | ⟨attr, l, op, r, hk, hmem, hfl⟩)
          · exact Or.inl (Or.inl hs)
          · rcases List.mem_cons.mp hmem with heq | hmem'
            · have : attr = attr0 := by
                injection heq with h1 _
              exact Or.inl (Or.inr (by rw [hk, this]))
            · exact Or.inr ⟨attr, l, op, r, hk, hmem', hfl⟩
      · simp only [hf, if_neg, Bool.false_eq_true, ite_false]
        rw [ih s i k]
        constructor
        · rintro (hs | ⟨attr, l, op, r, hk, hmem, hfl⟩)
          · exact Or.inl hs
          · exact Or.inr ⟨attr, l, op, r, hk, List.mem_cons_of_mem _ hmem, hfl⟩
        · rintro (hs | ⟨attr, l, op, r, hk, hmem, hfl⟩)
          · exact Or.inl hs
          · rcases List.mem_cons.mp hmem with heq | hmem'
            · exfalso
              injection heq with h1 h2
              injection h2 with h3 h4 h5
              exact hf (h5 ▸ hfl)
            · exact Or.inr ⟨attr, l, op, r, hk, hmem', hfl⟩
    | expr e0 =>
      rw [ih s i k]
      constructor
      · rintro (hs | ⟨attr, l, op, r, hk, hmem, hfl⟩)
        · exact Or.inl hs
        · exact Or.inr ⟨attr, l, op, r, hk, List.mem_cons_of_mem _ hmem, hfl⟩
      · rintro (hs | ⟨attr, l, op, r, hk, hmem, hfl⟩)
        · exact Or.inl hs
        · rcases List.mem_cons.mp hmem with heq | hmem'
          · exact absurd heq (by simp)
          · exact Or.inr ⟨attr, l, op, r, hk, hmem', hfl⟩

lemma nodup_stepSet (sl : List (String × SetExpr)) :
    ∀ (s : List (ℕ × String)) (i : ℕ), s.Nodup → (stepSet i sl s).Nodup := by
  induction sl with
  | nil => intro s i h; exact h
  | cons p sl ih =>
    intro s i h
    obtain ⟨attr0, se0⟩ := p
    have hstep : stepSet i ((attr0, se0) :: sl) s =
        stepSet i sl
          (match se0 with
           | .binOp _ _ r => if pyFloatAccepts r then addKey s (i, attr0) else s
           | .expr _ => s) := rfl
    rw [hstep]
    cases se0 with
    | binOp l0 op0 r0 =>
      by_cases hf : pyFloatAccepts r0
      · simp only [hf, if_pos]
        exact ih _ i (nodup_addKey _ _ h)
      · simp only [hf, Bool.false_eq_true, ite_false]
        exact ih _ i h
    | expr e0 => exact ih _ i h

lemma mem_stepConds (conds : List Cond) :
    ∀ (ci : ℕ) (w : List (ℕ × String × ℕ)) (i : ℕ) (k : ℕ × String × ℕ),
      k ∈ stepConds i ci conds w ↔
        k ∈ w ∨ ∃ j attr op v, conds[j]? = some (Cond.cmp attr op v) ∧
          pyFloatAccepts v = true ∧ k = (i, attr, ci + j) := by
  induction conds with
  | nil => intro ci w i k; simp [stepConds]
  | cons c conds ih =>
    intro ci w i k
    have hstep : stepConds i ci (c :: conds) w =
        stepConds i (ci + 1) conds
          (match c with
           | .cmp attr _ v => if pyFloatAccepts v then addKey w (i, attr, ci) else w
           | .raw _ => w) := rfl
    rw [hstep]
    cases c with
    | cmp attr0 op0 v0 =>
      by_cases hf : pyFloatAccepts v0
      · simp only [hf, if_pos]
        rw [ih (ci + 1) (addKey w (i, attr0, ci)) i k, mem_addKey]
        constructor
        · rintro ((hw | hk) | ⟨j, attr, op, v, hj, hfl, hk⟩)
          · exact Or.inl hw
          · exact Or.inr ⟨0, attr0, op0, v0, by simp, hf, by simpa using hk⟩
          · refine Or.inr ⟨j + 1, attr, op, v, by simpa using hj, hfl, ?_⟩
            rw [hk]
            have : ci + 1 + j = ci + (j + 1) := by omega
            rw [this]
        · rintro (hw | ⟨j, attr, op, v, hj, hfl, hk⟩)
          · exact Or.inl (Or.inl hw)
          · cases j with
            | zero =>
              simp only [List.getElem?_cons_zero, Option.some.injEq] at hj
              injection hj with h1 h2 h3
              refine Or.inl (Or.inr ?_)
              rw [hk, h1]
              simp
            | succ j' =>
              simp only [List.getElem?_cons_succ] at hj
              refine Or.inr ⟨j', attr, op, v, hj, hfl, ?_⟩
              rw [hk]
              have : ci + (j' + 1) = ci + 1 + j' := by omega
              rw [this]
      · simp only [hf, Bool.false_eq_true, ite_false]
        rw [ih (ci + 1) w i k]
        constructor
        · rintro (hw | ⟨j, attr, op, v, hj, hfl, hk⟩)
          · exact Or.inl hw
          · refine Or.inr ⟨j + 1, attr, op, v, by simpa using hj, hfl, ?_⟩
            rw [hk]
            have : ci + 1 + j = ci + (j + 1) := by omega
            rw [this]
        · rintro (hw | ⟨j, attr, op, v, hj, hfl, hk⟩)
          · exact Or.inl hw
          · cases j with
            | zero =>
              simp only [List.getElem?_cons_zero, Option.some.injEq] at hj
              injection hj with h1 h2 h3
              exact absurd (h3 ▸ hfl) hf
            | succ j' =>
              simp only [List.getElem?_cons_succ] at hj
              refine Or.inr ⟨j', attr, op, v, hj, hfl, ?_⟩
              rw [hk]
              have : ci + (j' + 1) = ci + 1 + j' := by omega
              rw [this]
    | raw c0 =>
      rw [ih (ci + 1) w i k]
      constructor
      · rintro (hw | ⟨j, attr, op, v, hj, hfl, hk⟩)
        · exact Or.inl hw
        · refine Or.inr ⟨j + 1, attr, op, v, by simpa using hj, hfl, ?_⟩
          rw [hk]
          have : ci + 1 + j = ci + (j + 1) := by omega
          rw [this]
      · rintro (hw | ⟨j, attr, op, v, hj, hfl, hk⟩)
        · exact Or.inl hw
        · cases j with
          | zero => simp at hj
          | succ j' =>
            simp only [List.getElem?_cons_succ] at hj
            refine Or.inr ⟨j', attr, op, v, hj, hfl, ?_⟩
            rw [hk]
            have : ci + (j' + 1) = ci + 1 + j' := by omega
            rw [this]

lemma nodup_stepConds (conds : List Cond) :
    ∀ (ci : ℕ) (w : List (ℕ × String × ℕ)) (i : ℕ),
      w.Nodup → (stepConds i ci conds w).Nodup := by
  induction conds with
  | nil => intro ci w i h; exact h
  | cons c conds ih =>
    intro ci w i h
    have hstep : stepConds i ci (c :: conds) w =
        stepConds i (ci + 1) conds
          (match c with
           | .cmp attr _ v => if pyFloatAccepts v then addKey w (i, attr, ci) else w
           | .raw _ => w) := rfl
    rw [hstep]
    cases c with
    | cmp attr0 op0 v0 =>
      by_cases hf : pyFloatAccepts v0
      · simp only [hf, if_pos]
        exact ih _ _ i (nodup_addKey _ _ h)
      · simp only [hf, Bool.false_eq_true, ite_false]
        exact ih _ _ i h
    | raw c0 => exact ih _ _ i h

lemma mem_stepWhere (wc : Option (List Cond)) (i : ℕ)
    (w : List (ℕ × String × ℕ)) (k : ℕ × String × ℕ) :
    k ∈ stepWhere i wc w ↔
      k ∈ w ∨ ∃ conds j attr op v, wc = some conds ∧
        conds[j]? = some (Cond.cmp attr op v) ∧
        pyFloatAccepts v = true ∧ k = (i, attr, j) := by
  cases wc with
  | none => simp [stepWhere]
  | some conds =>
    unfold stepWhere
    rw [mem_stepConds conds 0 w i k]
    constructor
    · rintro (hw | ⟨j, attr, op, v, hj, hfl, hk⟩)
      · exact Or.inl hw
      · exact Or.inr ⟨conds, j, attr, op, v, rfl, hj, hfl, by simpa using hk⟩
    · rintro (hw | ⟨conds', j, attr, op, v, hc, hj, hfl, hk⟩)
      · exact Or.inl hw
      · injection hc with hc
        subst hc
        exact Or.inr ⟨j, attr, op, v, hj, hfl, by simpa using hk⟩

lemma nodup_stepWhere (wc : Option (List Cond)) (i : ℕ)
    (w : List (ℕ × String × ℕ)) (h : w.Nodup) : (stepWhere i wc w).Nodup := by
  cases wc with
  | none => exact h
  | some conds => exact nodup_stepConds conds 0 w i h

lemma aqcvGo_fst_mem (rest : List ParsedQuery) :
    ∀ (i : ℕ) (st : List (ℕ × String) × List (ℕ × String × ℕ)) (k : ℕ × String),
      k ∈ (aqcvGo i rest st).1 ↔ k ∈ st.1 ∨
        ∃ j tbl sl wc attr l op r, rest[j]? = some (.update tbl sl wc) ∧
          (attr, SetExpr.binOp l op r) ∈ sl ∧ pyFloatAccepts r = true ∧
          k = (i + j, attr) := by
  induction rest with
  | nil => intro i st k; simp [aqcvGo]
  | cons q rest ih =>
    intro i st k
    cases q with
    | update tbl0 sl0 wc0 =>
      have hstep : aqcvGo i (ParsedQuery.update tbl0 sl0 wc0 :: rest) st =
          aqcvGo (i + 1) rest (stepSet i sl0 st.1, stepWhere i wc0 st.2) := rfl
      rw [hstep, ih (i + 1) _ k]
      simp only []
      rw [mem_stepSet sl0 st.1 i k]
      constructor
      · rintro ((hs | ⟨attr, l, op, r, hk, hmem, hfl⟩) |
          ⟨j, tbl, sl, wc, attr, l, op, r, hj, hmem, hfl, hk⟩)
        · exact Or.inl hs
        · exact Or.inr ⟨0, tbl0, sl0, wc0, attr, l, op, r, by simp, hmem, hfl,
            by simpa using hk⟩
        · refine Or.inr ⟨j + 1, tbl, sl, wc, attr, l, op, r, by simpa using hj,
            hmem, hfl, ?_⟩
          rw [hk]
          have : i + 1 + j = i + (j + 1) := by omega
          rw [this]
      · rintro (hs | ⟨j, tbl, sl, wc, attr, l, op, r, hj, hmem, hfl, hk⟩)
        · exact Or.inl (Or.inl hs)
        · cases j with
          | zero =>
            simp only [List.getElem?_cons_zero, Option.some.injEq] at hj
            injection hj with h1 h2 h3
            subst h2
            refine Or.inl (Or.inr ⟨attr, l, op, r, by simpa using hk, hmem, hfl⟩)
          | succ j' =>
            simp only [List.getElem?_cons_succ] at hj
            refine Or.inr ⟨j', tbl, sl, wc, attr, l, op, r, hj, hmem, hfl, ?_⟩
            rw [hk]
            have : i + (j' + 1) = i + 1 + j' := by omega
            rw [this]
    | delete tbl0 wc0 =>
      have hstep : aqcvGo i (ParsedQuery.delete tbl0 wc0 :: rest) st =
          aqcvGo (i + 1) rest (st.1, stepWhere i wc0 st.2) := rfl
      rw [hstep, ih (i + 1) _ k]
      simp only []
      constructor
      · rintro (hs | ⟨j, tbl, sl, wc, attr, l, op, r, hj, hmem, hfl, hk⟩)
        · exact Or.inl hs
        · refine Or.inr ⟨j + 1, tbl, sl, wc, attr, l, op, r, by simpa using hj,
            hmem, hfl, ?_⟩
          rw [hk]
          have : i + 1 + j = i + (j + 1) := by omega
          rw [this]
      · rintro (hs | ⟨j, tbl, sl, wc, attr, l, op, r, hj, hmem, hfl, hk⟩)
        · exact Or.inl hs
        · cases j with
          | zero => simp at hj
          | succ j' =>
            simp only [List.getElem?_cons_succ] at hj
            refine Or.inr ⟨j', tbl, sl, wc, attr, l, op, r, hj, hmem, hfl, ?_⟩
            rw [hk]
            have : i + (j' + 1) = i + 1 + j' := by omega
            rw [this]
    | insert tbl0 cols0 vals0 =>
      have hstep : aqcvGo i (ParsedQuery.insert tbl0 cols0 vals0 :: rest) st =
          aqcvGo (i + 1) rest st := rfl
      rw [hstep, ih (i + 1) st k]
      constructor
      · rintro (hs | ⟨j, tbl, sl, wc, attr, l, op, r, hj, hmem, hfl, hk⟩)
        · exact Or.inl hs
        · refine Or.inr ⟨j + 1, tbl, sl, wc, attr, l, op, r, by simpa using hj,
            hmem, hfl, ?_⟩
          rw [hk]
          have : i + 1 + j = i + (j + 1) := by omega
          rw [this]
      · rintro (hs | ⟨j, tbl, sl, wc, attr, l, op, r, hj, hmem, hfl, hk⟩)
        · exact Or.inl hs
        · cases j with
          | zero => simp at hj
          | succ j' =>
            simp only [List.getElem?_cons_succ] at hj
            refine Or.inr ⟨j', tbl, sl, wc, attr, l, op, r, hj, hmem, hfl, ?_⟩
            rw [hk]
            have : i + (j' + 1) = i + 1 + j' := by omega
            rw [this]
    | unknown raw0 =>
      have hstep : aqcvGo i (ParsedQuery.unknown raw0 :: rest) st =
          aqcvGo (i + 1) rest st := rfl
      rw [hstep, ih (i + 1) st k]
      constructor
      · rintro (hs | ⟨j, tbl, sl, wc, attr, l, op, r, hj, hmem, hfl, hk⟩)
        · exact Or.inl hs
        · refine Or.inr ⟨j + 1, tbl, sl, wc, attr, l, op, r, by simpa using hj,
            hmem, hfl, ?_⟩
          rw [hk]
          have : i + 1 + j = i + (j + 1) := by omega
          rw [this]
      · rintro (hs | ⟨j, tbl, sl, wc, attr, l, op, r, hj, hmem, hfl, hk⟩)
        · exact Or.inl hs
        · cases j with
          | zero => simp at hj
          | succ j' =>
            simp only [List.getElem?_cons_succ] at hj
            refine Or.inr ⟨j', tbl, sl, wc, attr, l, op, r, hj, hmem, hfl, ?_⟩
            rw [hk]
            have : i + (j' + 1) = i + 1 + j' := by omega
            rw [this]

lemma aqcvGo_snd_mem (rest : List ParsedQuery) :
    ∀ (i : ℕ) (st : List (ℕ × String) × List (ℕ × String × ℕ))
      (k : ℕ × String × ℕ),
      k ∈ (aqcvGo i rest st).2 ↔ k ∈ st.2 ∨
        ∃ j q conds ji attr op v, rest[j]? = some q ∧
          whereOf q = some conds ∧
          conds[ji]? = some (Cond.cmp attr op v) ∧
          pyFloatAccepts v = true ∧ k = (i + j, attr, ji) := by
  induction rest with
  | nil => intro i st k; simp [aqcvGo]
  | cons q rest ih =>
    intro i st k
    have hshift : ∀ P : Prop,
        (P ∨ ∃ j q' conds ji attr op v, rest[j]? = some q' ∧
          whereOf q' = some conds ∧
          conds[ji]? = some (Cond.cmp attr op v) ∧
          pyFloatAccepts v = true ∧ k = (i + 1 + j, attr, ji)) ↔
        (P ∨ ∃ j q' conds ji attr op v,
          (q :: rest)[j]? = some q' ∧ whereOf q' = some conds ∧
          conds[ji]? = some (Cond.cmp attr op v) ∧
          pyFloatAccepts v = true ∧ k = (i + j, attr, ji) ∧ j ≠ 0) := by
      intro P
      constructor
      · rintro (hp | ⟨j, q', conds, ji, attr, op, v, hj, hw, hc, hf, hk⟩)
        · exact Or.inl hp
        · refine Or.inr ⟨j + 1, q', conds, ji, attr, op, v, by simpa using hj,
            hw, hc, hf, ?_, by omega⟩
          rw [hk]
          have : i + 1 + j = i + (j + 1) := by omega
          rw [this]
      · rintro (hp | ⟨j, q', conds, ji, attr, op, v, hj, hw, hc, hf, hk, hj0⟩)
        · exact Or.inl hp
        · cases j with
          | zero => exact absurd rfl hj0
          | succ j' =>
            simp only [List.getElem?_cons_succ] at hj
            refine Or.inr ⟨j', q', conds, ji, attr, op, v, hj, hw, hc, hf, ?_⟩
            rw [hk]
            have : i + (j' + 1) = i + 1 + j' := by omega
            rw [this]
    cases q with
    | update tbl0 sl0 wc0 =>
      have hstep : aqcvGo i (ParsedQuery.update tbl0 sl0 wc0 :: rest) st =
          aqcvGo (i + 1) rest (stepSet i sl0 st.1, stepWhere i wc0 st.2) := rfl
      rw [hstep, ih (i + 1) _ k]
      simp only []
      rw [mem_stepWhere wc0 i st.2 k,
        hshift (k ∈ st.2 ∨ ∃ conds j attr op v, wc0 = some conds ∧
          conds[j]? = some (Cond.cmp attr op v) ∧
          pyFloatAccepts v = true ∧ k = (i, attr, j))]
      constructor
      · rintro ((hs | ⟨conds, j, attr, op, v, hwc, hc, hf, hk⟩) | hrest)
        · exact Or.inl hs
        · exact Or.inr ⟨0, ParsedQuery.update tbl0 sl0 wc0, conds, j, attr, op,
            v, by simp, by simpa [whereOf] using hwc, hc, hf, by simpa using hk⟩
        · obtain ⟨j, q', conds, ji, attr, op, v, hj, hw, hc, hf, hk, hj0⟩ := hrest
          exact Or.inr ⟨j, q', conds, ji, attr, op, v, hj, hw, hc, hf, hk⟩
      · rintro (hs | ⟨j, q', conds, ji, attr, op, v, hj, hw, hc, hf, hk⟩)
        · exact Or.inl (Or.inl hs)
        · by_cases hj0 : j = 0
          · subst hj0
            simp only [List.getElem?_cons_zero, Option.some.injEq] at hj
            subst hj
            simp only [whereOf] at hw
            exact Or.inl (Or.inr ⟨conds, ji, attr, op, v, hw, hc, hf,
              by simpa using hk⟩)
          · exact Or.inr ⟨j, q', conds, ji, attr, op, v, hj, hw, hc, hf, hk, hj0⟩
    | delete tbl0 wc0 =>
      have hstep : aqcvGo i (ParsedQuery.delete tbl0 wc0 :: rest) st =
          aqcvGo (i + 1) rest (st.1, stepWhere i wc0 st.2) := rfl
      rw [hstep, ih (i + 1) _ k]
      simp only []
      rw [mem_stepWhere wc0 i st.2 k,
        hshift (k ∈ st.2 ∨ ∃ conds j attr op v, wc0 = some conds ∧
          conds[j]? = some (Cond.cmp attr op v) ∧
          pyFloatAccepts v = true ∧ k = (i, attr, j))]
      constructor
      · rintro ((hs | ⟨conds, j, attr, op, v, hwc, hc, hf, hk⟩) | hrest)
        · exact Or.inl hs
        · exact Or.inr ⟨0, ParsedQuery.delete tbl0 wc0, conds, j, attr, op,
            v, by simp, by simpa [whereOf] using hwc, hc, hf, by simpa using hk⟩
        · obtain ⟨j, q', conds, ji, attr, op, v, hj, hw, hc, hf, hk, hj0⟩ := hrest
          exact Or.inr ⟨j, q', conds, ji, attr, op, v, hj, hw, hc, hf, hk⟩
      · rintro (hs | ⟨j, q', conds, ji, attr, op, v, hj, hw, hc, hf, hk⟩)
        · exact Or.inl (Or.inl hs)
        · by_cases hj0 : j = 0
          · subst hj0
            simp only [List.getElem?_cons_zero, Option.some.injEq] at hj
            subst hj
            simp only [whereOf] at hw
            exact Or.inl (Or.inr ⟨conds, ji, attr, op, v, hw, hc, hf,
              by simpa using hk⟩)
          · exact Or.inr ⟨j, q', conds, ji, attr, op, v, hj, hw, hc, hf, hk, hj0⟩
    | insert tbl0 cols0 vals0 =>
      have hstep : aqcvGo i (ParsedQuery.insert tbl0 cols0 vals0 :: rest) st =
          aqcvGo (i + 1) rest st := rfl
      rw [hstep, ih (i + 1) st k, hshift (k ∈ st.2)]
      constructor
      · rintro (hs | hrest)
        · exact Or.inl hs
        · obtain ⟨j, q', conds, ji, attr, op, v, hj, hw, hc, hf, hk, hj0⟩ := hrest
          exact Or.inr ⟨j, q', conds, ji, attr, op, v, hj, hw, hc, hf, hk⟩
      · rintro (hs | ⟨j, q', conds, ji, attr, op, v, hj, hw, hc, hf, hk⟩)
        · exact Or.inl hs
        · by_cases hj0 : j = 0
          · subst hj0
            simp only [List.getElem?_cons_zero, Option.some.injEq] at hj
            subst hj
            simp [whereOf] at hw
          · exact Or.inr ⟨j, q', conds, ji, attr, op, v, hj, hw, hc, hf, hk, hj0⟩
    | unknown raw0 =>
      have hstep : aqcvGo i (ParsedQuery.unknown raw0 :: rest) st =
          aqcvGo (i + 1) rest st := rfl
      rw [hstep, ih (i + 1) st k, hshift (k ∈ st.2)]
      constructor
      · rintro (hs | hrest)
        · exact Or.inl hs
        · obtain ⟨j, q', conds, ji, attr, op, v, hj, hw, hc, hf, hk, hj0⟩ := hrest
          exact Or.inr ⟨j, q', conds, ji, attr, op, v, hj, hw, hc, hf, hk⟩
      · rintro (hs | ⟨j, q', conds, ji, attr, op, v, hj, hw, hc, hf, hk⟩)
        · exact Or.inl hs
        · by_cases hj0 : j = 0
          · subst hj0
            simp only [List.getElem?_cons_zero, Option.some.injEq] at hj
            subst hj
            simp [whereOf] at hw
          · exact Or.inr ⟨j, q', conds, ji, attr, op, v, hj, hw, hc, hf, hk, hj0⟩

lemma aqcvGo_nodup (rest : List ParsedQuery) :
    ∀ (i : ℕ) (st : List (ℕ × String) × List (ℕ × String × ℕ)),
      st.1.Nodup → st.2.Nodup →
      (aqcvGo i rest st).1.Nodup ∧ (aqcvGo i rest st).2.Nodup := by
  induction rest with
  | nil => intro i st h1 h2; exact ⟨h1, h2⟩
  | cons q rest ih =>
    intro i st h1 h2
    cases q with
    | update tbl0 sl0 wc0 =>
      exact ih (i + 1) _ (nodup_stepSet sl0 st.1 i h1)
        (nodup_stepWhere wc0 i st.2 h2)
    | delete tbl0 wc0 =>
      exact ih (i + 1) _ h1 (nodup_stepWhere wc0 i st.2 h2)
    | insert tbl0 cols0 vals0 => exact ih (i + 1) st h1 h2
    | unknown raw0 => exact ih (i + 1) st h1 h2

/-- Counterexample to claim C7 as stated: the parsed log of
`UPDATE T SET B=1000` contains the numeric literal `1000` in the SET
right-hand side (`float("1000")` succeeds), yet
`add_query_constant_variables` allocates no constant variable at all — the
assignment parses as a bare expression (no binary operator), so there is no
`right_operand` key and the allocation branch is never reached. -/
theorem C7_counterexample :
    parse_query_log ["UPDATE T SET B=1000"] =
      [ParsedQuery.update "T" [("B", SetExpr.expr "1000")] none] ∧
    pyFloatAccepts "1000" = true ∧
    add_query_constant_variables (parse_query_log ["UPDATE T SET B=1000"]) =
      ([], []) := by
  refine ⟨by decide, by decide, by decide⟩

/-- Claim C7 (amended): for every parsed log,
`add_query_constant_variables` allocates exactly one continuous constant
variable per UPDATE SET assignment that parses as a binary expression with
a numeric (`float()`-accepted) right operand, and exactly one per numeric
WHERE comparison value of an UPDATE or DELETE; every other SET or WHERE
operand (non-numeric, or a bare/left-positioned literal) allocates nothing
and raises no error. -/
theorem C7_constants_amended (pq : List ParsedQuery) :
    (∀ i attr, (i, attr) ∈ (add_query_constant_variables pq).1 ↔
      setQualifies pq i attr) ∧
    (∀ i attr ci, (i, attr, ci) ∈ (add_query_constant_variables pq).2 ↔
      whereQualifies pq i attr ci) ∧
    (add_query_constant_variables pq).1.Nodup ∧
    (add_query_constant_variables pq).2.Nodup := by
  refine ⟨?_, ?_, ?_, ?_⟩
  · intro i attr
    unfold add_query_constant_variables
    rw [aqcvGo_fst_mem pq 0 ([], []) (i, attr)]
    unfold setQualifies
    constructor
    · rintro (hs | ⟨j, tbl, sl, wc, attr', l, op, r, hj, hmem, hfl, hk⟩)
      · simp at hs
      · rw [Prod.mk.injEq] at hk
        obtain ⟨hi, ha⟩ := hk
        have hji : j = i := by omega
        subst hji
        subst ha
        exact ⟨tbl, sl, wc, hj, l, op, r, hmem, hfl⟩
    · rintro ⟨tbl, sl, wc, hj, l, op, r, hmem, hfl⟩
      exact Or.inr ⟨i, tbl, sl, wc, attr, l, op, r, hj, hmem, hfl, by simp⟩
  · intro i attr ci
    unfold add_query_constant_variables
    rw [aqcvGo_snd_mem pq 0 ([], []) (i, attr, ci)]
    unfold whereQualifies
    constructor
    · rintro (hs | ⟨j, q', conds, ji, attr', op, v, hj, hw, hc, hf, hk⟩)
      · simp at hs
      · rw [Prod.mk.injEq] at hk
        obtain ⟨hi, hrest⟩ := hk
        rw [Prod.mk.injEq] at hrest
        obtain ⟨ha, hci⟩ := hrest
        have hji : j = i := by omega
        subst hji
        subst ha
        subst hci
        exact ⟨q', conds, op, v, hj, hw, hc, hf⟩
    · rintro ⟨q', conds, op, v, hj, hw, hc, hf⟩
      exact Or.inr ⟨i, q', conds, ci, attr, op, v, hj, hw, hc, hf, by simp⟩
  · exact (aqcvGo_nodup pq 0 ([], []) (by simp) (by simp)).1
  · exact (aqcvGo_nodup pq 0 ([], []) (by simp) (by simp)).2

/-- Witness for C7 at a concrete parsed log: the SET constant for
`UPDATE Taxes SET B=A+1000 WHERE A>=85700` is allocated. -/
theorem C7_witness :
    (0, "B") ∈ (add_query_constant_variables
      [ParsedQuery.update "Taxes" [("B", SetExpr.binOp "A" "+" "1000")]
        (some [Cond.cmp "A" ">=" "85700"])]).1 :=
  ((C7_constants_amended
    [ParsedQuery.update "Taxes" [("B", SetExpr.binOp "A" "+" "1000")]
      (some [Cond.cmp "A" ">=" "85700"])]).1 0 "B").mpr
    ⟨"Taxes", [("B", SetExpr.binOp "A" "+" "1000")],
      some [Cond.cmp "A" ">=" "85700"], by decide, "A", "+", "1000",
      by decide, by decide⟩

/-- Counterexample to claim C6 as stated: the line `"  ??? "` matches none
of the three statement patterns, and `parse_query_log` maps it to an
UNKNOWN entry whose stored text is the STRIPPED line `"???"`, not the
original line text `"  ??? "`. -/
theorem C6_counterexample :
    parse_query_log ["  ??? "] = [ParsedQuery.unknown "???"] ∧
    ("???" : String) ≠ "  ??? " := by
  refine ⟨by decide, by decide⟩

/-- Claim C6 (amended): for every list of log lines, `parse_query_log`
returns a list of the same length in the same order (it is total, so it
never raises), and maps every line that matches none of the
UPDATE/INSERT/DELETE patterns to an entry of type UNKNOWN that retains the
line's stripped text (leading/trailing whitespace removed), so positional
indexing of statements is preserved. -/
theorem C6_parse_log_amended (Q : List String) :
    (parse_query_log Q).length = Q.length ∧
    ∀ (k : ℕ) (line : String), Q[k]? = some line →
      updateMatch (pyStrip line).toList = none →
      insertMatch (pyStrip line).toList = none →
      deleteMatch (pyStrip line).toList = none →
      (parse_query_log Q)[k]? = some (ParsedQuery.unknown (pyStrip line)) := by
  constructor
  · exact List.length_map Q parseLine
  · intro k line hline h1 h2 h3
    unfold parse_query_log
    rw [List.getElem?_map, hline]
    show some (parseLine line) = some (ParsedQuery.unknown (pyStrip line))
    congr 1
    unfold parseLine parseStripped
    rw [h1, h2, h3]

/-- Witness for C6 at the concrete line `"  @@ "`, unmatched by all three
patterns. -/
theorem C6_witness :
    (parse_query_log ["  @@ "]).length = 1 ∧
    (parse_query_log ["  @@ "])[0]? = some (ParsedQuery.unknown "@@") := by
  have hs : pyStrip "  @@ " = "@@" := by decide
  refine ⟨by simpa using (C6_parse_log_amended ["  @@ "]).1, ?_⟩
  have h := (C6_parse_log_amended ["  @@ "]).2 0 "  @@ " rfl
    (by decide) (by decide) (by decide)
  rw [hs] at h
  exact h

/-! ## Chain continuity (spec-modelled Constraint Assembler)

`MILP` in `main.py` allocates the decision variables but emits no
constraints, and spec §9 declares it an unimplemented stub whose intended
behavior is the Constraint Assembler of §4.4.  The variable index set is
taken from the source (`add_out_in_variables`); the chain-continuity
constraints themselves are modelled from the spec. -/

/-- The `(q_index, t_index, attribute)` index set of the `out`/`in`
variables created by `add_out_in_variables` in `add_variables.py`
(every query paired with every tuple and every non-metadata attribute). -/
def outInKeys (R : List Row) (parsedQ : List ParsedQuery) : List (ℕ × ℕ × String) :=
  parsedQ.enum.flatMap (fun qi =>
    R.enum.flatMap (fun tj =>
      ((tj.2.map Prod.fst).filter (fun k => !isMetaKey k)).map
        (fun a => (qi.1, tj.1, a))))

/-- Modelled from the spec: the Constraint Assembler (stubbed in the
source's `MILP`) emits, per §3's invariant (a) and §4.4, one equality
constraint `out[i,j,A] = in[i+1,j,A]` for every key whose successor-step
key is also defined. -/
def chainConstraints (R : List Row) (pq : List ParsedQuery) :
    List ((ℕ × ℕ × String) × (ℕ × ℕ × String)) :=
  (outInKeys R pq).filterMap (fun k =>
    if (k.1 + 1, k.2.1, k.2.2) ∈ outInKeys R pq then
      some (k, (k.1 + 1, k.2.1, k.2.2))
    else none)

/-- An assignment of the `out`/`in` variables satisfies the emitted
chain-continuity constraints. -/
def chainHolds (outv inv : ℕ × ℕ × String → ℚ) (R : List Row)
    (pq : List ParsedQuery) : Prop :=
  ∀ c ∈ chainConstraints R pq, outv c.1 = inv c.2

/-- Claim C4: in every feasible solution of the (spec-modelled) MILP
constraints, for every tuple `j`, attribute `A` and pair of consecutive
statements `i`, `i+1` for which both variables are defined,
`out[i,j,A] = in[i+1,j,A]`. -/
theorem C4_chain_continuity (R : List Row) (pq : List ParsedQuery)
    (outv inv : ℕ × ℕ × String → ℚ) (h : chainHolds outv inv R pq) :
    ∀ i j A, (i, j, A) ∈ outInKeys R pq → (i + 1, j, A) ∈ outInKeys R pq →
      outv (i, j, A) = inv (i + 1, j, A) := by
  intro i j A h1 h2
  have hc : ((i, j, A), (i + 1, j, A)) ∈ chainConstraints R pq := by
    unfold chainConstraints
    apply List.mem_filterMap.mpr
    exact ⟨(i, j, A), h1, by rw [if_pos h2]⟩
  exact h _ hc

/-- Witness for C4 on a one-row, two-statement instance with the constant
assignment 3. -/
theorem C4_witness :
    chainHolds (fun _ => (3:ℚ)) (fun _ => (3:ℚ))
      [[("A", (1 : Int))]] [.unknown "a", .unknown "b"] ∧
    (0, 0, "A") ∈ outInKeys [[("A", (1 : Int))]] [.unknown "a", .unknown "b"] ∧
    (0 + 1, 0, "A") ∈ outInKeys [[("A", (1 : Int))]] [.unknown "a", .unknown "b"] ∧
    (fun _ => (3:ℚ)) ((0:ℕ), (0:ℕ), ("A":String)) =
      (fun _ => (3:ℚ)) ((0+1:ℕ), (0:ℕ), ("A":String)) :=
  ⟨fun _ _ => rfl, by decide, by decide,
    C4_chain_continuity [[("A", (1 : Int))]] [.unknown "a", .unknown "b"]
      (fun _ => (3:ℚ)) (fun _ => (3:ℚ)) (fun _ _ => rfl) 0 0 "A"
      (by decide) (by decide)⟩

/-! ## Repair Extractor (spec-modelled) -/

/-- Modelled from the spec: `parse_to_query` in `query_log_parse.py` is a
bare `pass` stub; §4.5 and §9 define the intended Repair Extractor: a
statement whose error indicators `e[i,j]` are 0 across all tuples is kept
verbatim, and otherwise its correctable literal slots are rewritten from
the solved constants (the rewriting itself, irrelevant to the all-zero
case, is the parameter `rewr`). -/
def parse_to_query (e : ℕ → ℕ → ℚ) (numTuples : ℕ)
    (rewr : ℕ → String → String) (Q : List String) : List String :=
  Q.enum.map
    (fun p => if ∀ j, j < numTuples → e p.1 j = 0 then p.2 else rewr p.1 p.2)

/-- Claim C8: for every input log and every solved assignment in which
every error indicator `e[i,j]` is 0, the Repair Extractor returns a log
textually identical to the input. -/
theorem C8_repair_idempotent (e : ℕ → ℕ → ℚ) (numTuples : ℕ)
    (rewr : ℕ → String → String) (Q : List String)
    (h : ∀ i j, e i j = 0) :
    parse_to_query e numTuples rewr Q = Q := by
  unfold parse_to_query
  have hcong : Q.enum.map
      (fun p => if ∀ j, j < numTuples → e p.1 j = 0 then p.2
        else rewr p.1 p.2) = Q.enum.map Prod.snd := by
    apply List.map_congr_left
    intro p _
    rw [if_pos]
    intro j _
    exact h p.1 j
  rw [hcong, List.enum_map_snd]

/-- Witness for C8 with the all-zero error assignment on a two-line log. -/
theorem C8_witness :
    parse_to_query (fun _ _ => (0:ℚ)) 2 (fun _ s => s ++ "!") ["a", "b"] =
      ["a", "b"] :=
  C8_repair_idempotent (fun _ _ => (0:ℚ)) 2 (fun _ s => s ++ "!") ["a", "b"]
    (fun _ _ => rfl)

end Qfix
